import Mathlib

/-!
Shallow embedding of `src/dfa_identify/identify.py` (the size-iteration
driver `find_models` / `find_dfas` / `find_dfa` and the stutter optimizer
`order_models_by_stutter`) together with theorems settling the spec claims.

The SAT oracle, the cardinality encoder (`pysat`), the encoding generator
and the DFA extractor (`dfa_identify.encoding`, `dfa_identify.graphs`,
absent from `src/`) are external collaborators: they are embedded as
parameters (lists of solver outputs, enumeration functions) whose
documented contracts appear as named `Prop` definitions used as
hypotheses.

Python generators are embedded as (finite) Lean lists: a theorem about
the produced list is a theorem about every finite prefix a consumer can
pull.  Python exceptions (`ValueError`, `AssertionError`) become an
`Except` error value.
-/

namespace DfaIdentify

/-- A word is an ordered finite sequence of symbols
(Python: `Word`, converted to tuples by `find_models`). -/
abbrev Word (σ : Type) := List σ

/-- A satisfying assignment as returned by pysat: entry `i` is the signed
literal for variable `i + 1` (positive = true). -/
abbrev PyModel := List Int

/-- The Python exceptions `find_models` can raise. -/
inductive PyErr
  | valueError
  | assertionError
deriving DecidableEq

/-- Embedding of `more_itertools.roundrobin` restricted to two iterables: visit them in a
cycle until each is exhausted (one element from each alternately; once one
ends, the rest of the other follows). -/
def roundrobin : List α → List α → List α
  | [], ys => ys
  | x :: xs, ys => x :: roundrobin ys xs
termination_by xs ys => xs.length + ys.length

/-- Embedding of `non_stutter_count` from `order_models_by_stutter`:
`sum(model[x - 1] > 0 for x in lits)`. -/
def non_stutter_count (lits : List Nat) (model : PyModel) : Nat :=
  (lits.filter (fun x => decide (0 < model.getD (x - 1) 0))).length

/-- Outcome of the binary-search loop of `order_models_by_stutter`:
normal exit with the final `lo`, the `assert hi <= mid` failing
(an `AssertionError` in Python), or the fuel running out (cannot happen
with enough fuel; see the termination theorem). -/
inductive BSResult
  | done (lo : Nat)
  | assertFail
  | outOfFuel
deriving DecidableEq

/-- The `while lo < hi` binary-search loop of `order_models_by_stutter`
(identify.py lines 202-210), with explicit fuel.  `enumLe b` embeds
`find_models(b, CardEnc.atmost)`: the oracle's model enumeration for
`clauses` plus an at-most-`b` cardinality constraint over the
non-stutter literals; `next(models, None)` is its `head?`.  On a witness
the code sets `hi` to the witness's own non-stutter count and asserts
`hi <= mid`; on an unsatisfiable query it sets `lo = mid + 1`. -/
def stutter_bsearch (count : PyModel → Nat) (enumLe : Nat → List PyModel) :
    Nat → Nat → Nat → BSResult
  | 0, lo, hi => if lo < hi then .outOfFuel else .done lo
  | fuel + 1, lo, hi =>
    if lo < hi then
      let mid := (lo + hi) / 2
      match (enumLe mid).head? with
      | some w =>
        if count w ≤ mid then stutter_bsearch count enumLe fuel lo (count w)
        else .assertFail
      | none => stutter_bsearch count enumLe fuel (mid + 1) hi
    else .done lo

/-- The emission sweep of `order_models_by_stutter` (identify.py lines
212-221): `for bound in range(lo, naive_bound + 1)`, where before querying a
`bound` beyond the confirmed-feasible `candidate_bound` an at-most query is
issued first, breaking the loop if it is unsatisfiable; every bound reached
yields all models of `find_models(bound, CardEnc.equals)`, embedded as
`enumEq bound`. -/
def stutter_sweep (count : PyModel → Nat) (enumLe enumEq : Nat → List PyModel)
    (naive : Nat) (bound candidate : Nat) : List PyModel :=
  if bound > naive then []
  else if bound > candidate then
    match (enumLe bound).head? with
    | none => []
    | some w =>
        enumEq bound ++ stutter_sweep count enumLe enumEq naive (bound + 1) (count w)
  else enumEq bound ++ stutter_sweep count enumLe enumEq naive (bound + 1) candidate
termination_by naive + 1 - bound

/-- Embedding of `order_models_by_stutter` (identify.py lines 172-221), with the solver
queries abstracted into `enumLe` / `enumEq`.  `lits` is
`codec.non_stutter_lits`, `n_colors` is `codec.n_colors`, `model` the witness
model handed in by `find_models`.  `none` models an `AssertionError`
escaping the binary search (impossible when the oracle meets its contract).
The fuel `candidate_bound + 1` dominates `hi - lo`, so fuel exhaustion is
impossible (proved below). -/
def order_models_by_stutter (lits : List Nat) (n_colors : Nat)
    (enumLe enumEq : Nat → List PyModel) (model : PyModel) :
    Option (List PyModel) :=
  let count := non_stutter_count lits
  let candidate_bound := count model
  match stutter_bsearch count enumLe (candidate_bound + 1)
      (n_colors - 1) candidate_bound with
  | .done lo =>
      some (stutter_sweep count enumLe enumEq lits.length lo candidate_bound)
  | _ => none

/-- One entry of the `dfa_id_encodings` stream as the driver loop of
`find_models` (identify.py lines 110-128) observes it: the codec, its
candidate size `nColors` (`codec.n_colors`), its non-stutter literals
(`codec.non_stutter_lits`), and the outputs of the scoped solver session
bootstrapped with this size's clauses — `solvable` is `solver.solve()`,
`enumModels` is `solver.enum_models()`, `firstModel` is
`solver.get_model()`, and `enumLe b` / `enumEq b` are the enumerations of
fresh sessions over the clauses plus an at-most-`b` / exactly-`b`
cardinality constraint (used by `order_models_by_stutter`). -/
structure Encoding (C : Type) where
  codec : C
  nColors : Nat
  nonStutterLits : List Nat
  solvable : Bool
  enumModels : List PyModel
  firstModel : PyModel
  enumLe : Nat → List PyModel
  enumEq : Nat → List PyModel

/-- The models the driver consumes at one satisfiable size: the plain solver
enumeration when `order_by_stutter` is off, or the output of
`order_models_by_stutter` (with `none` = escaped `AssertionError`) when on. -/
def encModels (obs : Bool) (e : Encoding C) : Option (List PyModel) :=
  if obs then
    order_models_by_stutter e.nonStutterLits e.nColors e.enumLe e.enumEq e.firstModel
  else some e.enumModels

/-- The `for codec, clauses in encodings` loop of `find_models`
(identify.py lines 110-128): skip an unsatisfiable size (`continue`),
at a satisfiable size yield every model paired with the codec, then
`return` unless `allow_unminimized`, in which case `continue`. -/
def find_models_loop (obs unm : Bool) :
    List (Encoding C) → Except PyErr (List (C × PyModel))
  | [] => .ok []
  | e :: rest =>
    if e.solvable then
      match encModels obs e with
      | none => .error .assertionError
      | some ms =>
        let out := ms.map (fun m => (e.codec, m))
        if unm then (find_models_loop obs unm rest).map (fun tail => out ++ tail)
        else .ok out
    else find_models_loop obs unm rest

/-- Python truthiness of the `alphabet` argument as tested by
`if not alphabet:` (identify.py line 87): `None` and an empty frozenset are
both falsy. -/
def alphabetFalsy : Option (List σ) → Bool
  | none => true
  | some l => l.isEmpty

/-- Embedding of `find_models` (identify.py lines 69-128).  The external encoding
pipeline (`APTA.from_examples` + `dfa_id_encodings`, not under `src/`) is
abstracted as `encodingsOf accepting rejecting alphabet`, the finite
stream of per-size encodings with their solver outputs.  The body follows
the source: words are already structural lists (the `map(tuple, ...)`
conversion is the identity here); a common word short-circuits to an
empty sequence; with no examples, a falsy alphabet raises `ValueError`
and otherwise the two empty-word conjectures are run and round-robin
interleaved (the recursive Python calls reduce to the encoding loop,
since their example sets are no longer both empty and share no word). -/
def find_models [DecidableEq σ]
    (encodingsOf : List (Word σ) → List (Word σ) → Option (List σ) → List (Encoding C))
    (obs unm : Bool) (accepting rejecting : List (Word σ))
    (alphabet : Option (List σ)) : Except PyErr (List (C × PyModel)) :=
  if accepting.any (fun w => rejecting.contains w) then .ok []
  else if accepting.isEmpty && rejecting.isEmpty then
    if alphabetFalsy alphabet then .error .valueError
    else do
      let pos ← find_models_loop obs unm (encodingsOf [[]] [] alphabet)
      let neg ← find_models_loop obs unm (encodingsOf [] [[]] alphabet)
      pure (roundrobin pos neg)
  else find_models_loop obs unm (encodingsOf accepting rejecting alphabet)

/-- The decoded automaton as the claims observe it: a membership query over
words (`my_dfa.label`).  The full DFA value type is external (the `dfa`
package); only the membership predicate is relevant to the claims. -/
structure DFA (σ : Type) where
  label : Word σ → Bool

/-- Embedding of `find_dfas` (identify.py lines 21-66): run `find_models` and decode each
`(codec, model)` pair through `codec.extract_dfa`, abstracted as the
`extract` parameter (defined in `dfa_identify.encoding`, not under `src/`). -/
def find_dfas [DecidableEq σ] (extract : C → PyModel → DFA σ)
    (encodingsOf : List (Word σ) → List (Word σ) → Option (List σ) → List (Encoding C))
    (obs unm : Bool) (accepting rejecting : List (Word σ))
    (alphabet : Option (List σ)) : Except PyErr (List (DFA σ)) :=
  (find_models encodingsOf obs unm accepting rejecting alphabet).map
    (List.map (fun p => extract p.1 p.2))

/-- Embedding of `find_dfa` (identify.py lines 131-166): `next(all_dfas, None)` on
`find_dfas` called with the same arguments; `find_dfa` takes no
`allow_unminimized` parameter, so the default `False` is passed. -/
def find_dfa [DecidableEq σ] (extract : C → PyModel → DFA σ)
    (encodingsOf : List (Word σ) → List (Word σ) → Option (List σ) → List (Encoding C))
    (obs : Bool) (accepting rejecting : List (Word σ))
    (alphabet : Option (List σ)) : Except PyErr (Option (DFA σ)) :=
  (find_dfas extract encodingsOf obs false accepting rejecting alphabet).map
    List.head?

/-- A DFA labels every accepting word true and every rejecting word false. -/
def ConsistentWith (d : DFA σ) (accepting rejecting : List (Word σ)) : Prop :=
  (∀ w ∈ accepting, d.label w = true) ∧ (∀ w ∈ rejecting, d.label w = false)

/-- Modelled from the spec: the encoding generator `dfa_id_encodings` and
the extractor `Codec.extract_dfa` live in `dfa_identify.encoding` /
`dfa_identify.graphs`, which are not under `src/`.  Spec §4.2 promises that
every model of the size-k clause set decodes to a DFA "consistent with
every labeled APTA node", i.e. (§8 Soundness) labeling every accepting
example true and every rejecting example false.  This predicate states that
contract for the abstract `extract` / `encodingsOf` parameters, over the
models the driver actually consumes. -/
def EncodingsSound (obs : Bool) (extract : C → PyModel → DFA σ)
    (encodingsOf : List (Word σ) → List (Word σ) → Option (List σ) → List (Encoding C)) :
    Prop :=
  ∀ acc rej alph, ∀ e ∈ encodingsOf acc rej alph, ∀ ms, encModels obs e = some ms →
    ∀ m ∈ ms, ConsistentWith (extract e.codec m) acc rej

/-- Contract of the SAT oracle plus the at-most cardinality encoder for one
clause set with model list `allModels`: `enumLe b` enumerates exactly the
models whose non-stutter count is at most `b`. -/
def AtMostOracle (count : PyModel → Nat) (allModels : List PyModel)
    (enumLe : Nat → List PyModel) : Prop :=
  ∀ b m, m ∈ enumLe b ↔ (m ∈ allModels ∧ count m ≤ b)

/-- Contract of the SAT oracle plus the exactly cardinality encoder:
`enumEq b` enumerates exactly the models whose non-stutter count equals
`b`. -/
def ExactlyOracle (count : PyModel → Nat) (allModels : List PyModel)
    (enumEq : Nat → List PyModel) : Prop :=
  ∀ b m, m ∈ enumEq b ↔ (m ∈ allModels ∧ count m = b)

/-- The value `μ` is the minimum non-stutter count among all models: it is attained
and is a lower bound. -/
def IsMinCount (count : PyModel → Nat) (allModels : List PyModel) (μ : Nat) :
    Prop :=
  (∃ m ∈ allModels, count m = μ) ∧ ∀ m ∈ allModels, μ ≤ count m

/-! ### Helper lemmas -/

/-- Closed form of two-iterable `roundrobin`: the alternating prefix over
the common length, then the untouched tail of the longer list. -/
lemma roundrobin_eq (xs ys : List α) :
    roundrobin xs ys =
      (xs.zip ys).flatMap (fun p => [p.1, p.2]) ++
        (if xs.length ≤ ys.length then ys.drop xs.length
         else xs.drop ys.length) := by
  induction xs generalizing ys with
  | nil => simp [roundrobin]
  | cons x xs ih =>
    cases ys with
    | nil => simp [roundrobin]
    | cons y ys =>
      have hx : roundrobin (x :: xs) (y :: ys) = x :: y :: roundrobin xs ys := by
        rw [roundrobin, roundrobin]
      rw [hx, ih ys]
      simp only [List.zip_cons_cons, List.flatMap_cons, List.length_cons,
        List.drop_succ_cons, Nat.add_le_add_iff_right]
      rfl

/-- The driver loop yields nothing when no candidate size is satisfiable. -/
lemma find_models_loop_of_find?_none {C : Type} (obs unm : Bool) :
    ∀ encs : List (Encoding C), encs.find? (fun e => e.solvable) = none →
      find_models_loop obs unm encs = .ok [] := by
  intro encs
  induction encs with
  | nil => intro _; rfl
  | cons a rest ih =>
    intro h
    by_cases hs : a.solvable
    · rw [List.find?_cons_of_pos _ hs] at h
      exact absurd h (by simp)
    · rw [List.find?_cons_of_neg _ hs] at h
      simpa [find_models_loop, hs] using ih h

/-- Without `allow_unminimized`, the driver loop yields exactly the models
of the first satisfiable encoding and stops. -/
lemma find_models_loop_of_find?_some {C : Type} (obs : Bool) :
    ∀ (encs : List (Encoding C)) e, encs.find? (fun e => e.solvable) = some e →
      ∀ ms, encModels obs e = some ms →
        find_models_loop obs false encs = .ok (ms.map fun m => (e.codec, m)) := by
  intro encs
  induction encs with
  | nil => intro e h; exact absurd h (by simp)
  | cons a rest ih =>
    intro e h ms hms
    by_cases hs : a.solvable
    · rw [List.find?_cons_of_pos _ hs] at h
      obtain rfl : a = e := by injection h
      simp [find_models_loop, hs, hms]
    · rw [List.find?_cons_of_neg _ hs] at h
      simpa [find_models_loop, hs] using ih e h ms hms

/-- With `allow_unminimized`, the driver loop concatenates the models of
every satisfiable encoding, in stream order. -/
lemma find_models_loop_of_unm {C : Type} (obs : Bool) :
    ∀ encs : List (Encoding C),
      (∀ e ∈ encs, e.solvable = true → (encModels obs e).isSome = true) →
      find_models_loop obs true encs =
        .ok ((encs.filter fun e => e.solvable).flatMap
          fun e => ((encModels obs e).getD []).map fun m => (e.codec, m)) := by
  intro encs
  induction encs with
  | nil => intro _; rfl
  | cons a rest ih =>
    intro h
    have hrest := ih fun e he => h e (List.mem_cons_of_mem a he)
    by_cases hs : a.solvable
    · obtain ⟨ms, hms⟩ :=
        Option.isSome_iff_exists.mp (h a (List.mem_cons_self a rest) hs)
      simp [find_models_loop, hs, hms, hrest, List.filter_cons, Except.map]
    · simp [find_models_loop, hs, hrest, List.filter_cons]

/-- With strictly increasing candidate sizes, the first satisfiable
encoding has the smallest size among all satisfiable encodings. -/
lemma find?_solvable_min_nColors {C : Type} :
    ∀ (encs : List (Encoding C)) e,
      List.Pairwise (fun a b => a.nColors < b.nColors) encs →
      encs.find? (fun e => e.solvable) = some e →
      ∀ x ∈ encs, x.solvable = true → e.nColors ≤ x.nColors := by
  intro encs
  induction encs with
  | nil => intro e _ h; exact absurd h (by simp)
  | cons a rest ih =>
    intro e hpw h x hx hxs
    obtain ⟨ha, hrest⟩ := List.pairwise_cons.mp hpw
    by_cases hs : a.solvable
    · rw [List.find?_cons_of_pos _ hs] at h
      obtain rfl : a = e := by injection h
      rcases List.mem_cons.mp hx with rfl | hx'
      · exact le_refl _
      · exact le_of_lt (ha x hx')
    · rw [List.find?_cons_of_neg _ hs] at h
      rcases List.mem_cons.mp hx with rfl | hx'
      · exact absurd hxs (by simpa using hs)
      · exact ih e hrest h x hx' hxs

/-- Provenance of every pair the driver loop yields: it comes from a
satisfiable encoding of the stream, tagged with that encoding's codec, and
is one of the models the driver consumed there. -/
lemma find_models_loop_mem {C : Type} (obs unm : Bool) :
    ∀ (encs : List (Encoding C)) L, find_models_loop obs unm encs = .ok L →
      ∀ p ∈ L, ∃ e ∈ encs, ∃ ms, encModels obs e = some ms ∧
        p.1 = e.codec ∧ p.2 ∈ ms := by
  intro encs
  induction encs with
  | nil =>
    intro L h p hp
    obtain rfl : ([] : List (C × PyModel)) = L := by injection h
    exact absurd hp (by simp)
  | cons a rest ih =>
    intro L h p hp
    by_cases hs : a.solvable
    · cases hms : encModels obs a with
      | none => rw [find_models_loop, if_pos hs, hms] at h; exact absurd h (by simp)
      | some ms =>
        rw [find_models_loop, if_pos hs, hms] at h
        by_cases hu : unm
        · subst hu
          cases hrest : find_models_loop obs true rest with
          | error err =>
            rw [hrest] at h
            exact absurd h (by simp [Except.map])
          | ok tail =>
            rw [hrest] at h
            simp only [Except.map, if_true] at h
            obtain rfl : ms.map (fun m => (a.codec, m)) ++ tail = L := by
              injection h
            rcases List.mem_append.mp hp with hp1 | hp2
            · obtain ⟨m, hm, rfl⟩ := List.mem_map.mp hp1
              exact ⟨a, List.mem_cons_self a rest, ms, hms, rfl, hm⟩
            · obtain ⟨e, he, ms', hms', h1, h2⟩ := ih tail hrest p hp2
              exact ⟨e, List.mem_cons_of_mem a he, ms', hms', h1, h2⟩
        · simp only [hu, if_false, Bool.false_eq_true] at h
          obtain rfl : ms.map (fun m => (a.codec, m)) = L := by injection h
          obtain ⟨m, hm, rfl⟩ := List.mem_map.mp hp
          exact ⟨a, List.mem_cons_self a rest, ms, hms, rfl, hm⟩
    · rw [find_models_loop, if_neg hs] at h
      obtain ⟨e, he, ms, hms, h1, h2⟩ := ih L h p hp
      exact ⟨e, List.mem_cons_of_mem a he, ms, hms, h1, h2⟩

/-- Sample solvable encoding used to instantiate witnesses. -/
def sampleEnc : Encoding Unit where
  codec := ()
  nColors := 2
  nonStutterLits := [1, 2]
  solvable := true
  enumModels := [[1]]
  firstModel := [1]
  enumLe := fun _ => []
  enumEq := fun _ => []

/-- Sample unsolvable encoding (smaller candidate size) used to instantiate
witnesses. -/
def sampleEnc0 : Encoding Unit where
  codec := ()
  nColors := 1
  nonStutterLits := [1]
  solvable := false
  enumModels := []
  firstModel := []
  enumLe := fun _ => []
  enumEq := fun _ => []

/-- Sample model set for the stutter-optimizer witnesses: non-stutter
counts 1 and 2 over the literals `[1, 2]`. -/
def sampleAllModels : List PyModel := [[1, -2], [1, 2]]

/-- Sample at-most oracle for witnesses: filter the model set by count. -/
def sampleEnumLe : Nat → List PyModel :=
  fun b => sampleAllModels.filter fun m => decide (non_stutter_count [1, 2] m ≤ b)

/-- Sample exactly oracle for witnesses: filter the model set by count. -/
def sampleEnumEq : Nat → List PyModel :=
  fun b => sampleAllModels.filter fun m => decide (non_stutter_count [1, 2] m = b)

/-- Filtering a model list by `count ≤ b` meets the at-most oracle
contract. -/
lemma atMostOracle_filter (count : PyModel → Nat) (l : List PyModel) :
    AtMostOracle count l (fun b => l.filter fun m => decide (count m ≤ b)) := by
  intro b m
  simp [List.mem_filter]

/-- Filtering a model list by `count = b` meets the exactly oracle
contract. -/
lemma exactlyOracle_filter (count : PyModel → Nat) (l : List PyModel) :
    ExactlyOracle count l (fun b => l.filter fun m => decide (count m = b)) := by
  intro b m
  simp [List.mem_filter]

/-- Invariant-preserving run of the binary search: starting inside
`[lo, hi]` with `lo ≤ μ ≤ hi` and the oracle meeting its at-most contract,
the loop exits normally with the true minimum `μ`. -/
lemma stutter_bsearch_finds_min (count : PyModel → Nat)
    (enumLe : Nat → List PyModel) (allModels : List PyModel) (μ : Nat)
    (hor : AtMostOracle count allModels enumLe)
    (hmin : IsMinCount count allModels μ) :
    ∀ fuel lo hi, lo ≤ μ → μ ≤ hi → hi - lo ≤ fuel →
      stutter_bsearch count enumLe fuel lo hi = .done μ := by
  intro fuel
  induction fuel with
  | zero =>
    intro lo hi hlo hhi hfuel
    have hlt : ¬ lo < hi := by omega
    have heq : lo = μ := by omega
    simp only [stutter_bsearch, if_neg hlt]
    rw [heq]
  | succ fuel ih =>
    intro lo hi hlo hhi hfuel
    by_cases hlt : lo < hi
    · have h1 : lo ≤ (lo + hi) / 2 := by omega
      have h2 : (lo + hi) / 2 < hi := by omega
      cases hw : (enumLe ((lo + hi) / 2)).head? with
      | some w =>
        obtain ⟨hwAll, hwle⟩ := (hor _ w).mp (List.mem_of_mem_head? hw)
        have hμw : μ ≤ count w := hmin.2 w hwAll
        simp only [stutter_bsearch, if_pos hlt, hw, if_pos hwle]
        exact ih lo (count w) hlo hμw (by omega)
      | none =>
        have hmidμ : (lo + hi) / 2 < μ := by
          by_contra hcon
          push_neg at hcon
          obtain ⟨mstar, hms, hcs⟩ := hmin.1
          have hmem : mstar ∈ enumLe ((lo + hi) / 2) :=
            (hor _ mstar).mpr ⟨hms, by omega⟩
          rw [List.head?_eq_none_iff.mp hw] at hmem
          exact absurd hmem (by simp)
        simp only [stutter_bsearch, if_pos hlt, hw]
        exact ih ((lo + hi) / 2 + 1) hi (by omega) hhi (by omega)
    · have heq : lo = μ := by omega
      simp only [stutter_bsearch, if_neg hlt]
      rw [heq]

/-- Everything the emission sweep yields is a model of the clause set with
non-stutter count at least the current bound. -/
lemma stutter_sweep_mem_le (count : PyModel → Nat)
    (enumLe enumEq : Nat → List PyModel) (allModels : List PyModel)
    (naive : Nat) (heq : ExactlyOracle count allModels enumEq) :
    ∀ k bound candidate, naive + 1 - bound ≤ k →
      ∀ m ∈ stutter_sweep count enumLe enumEq naive bound candidate,
        m ∈ allModels ∧ bound ≤ count m := by
  intro k
  induction k with
  | zero =>
    intro bound candidate hk m hm
    have hb : bound > naive := by omega
    rw [stutter_sweep, if_pos hb] at hm
    exact absurd hm (by simp)
  | succ k ih =>
    intro bound candidate hk m hm
    by_cases hb : bound > naive
    · rw [stutter_sweep, if_pos hb] at hm
      exact absurd hm (by simp)
    · rw [stutter_sweep, if_neg hb] at hm
      by_cases hc : bound > candidate
      · rw [if_pos hc] at hm
        cases hw : (enumLe bound).head? with
        | none =>
          rw [hw] at hm
          exact absurd hm (by simp)
        | some w =>
          rw [hw] at hm
          rcases List.mem_append.mp hm with h1 | h2
          · have h := (heq bound m).mp h1
            exact ⟨h.1, le_of_eq h.2.symm⟩
          · have h := ih (bound + 1) (count w) (by omega) m h2
            exact ⟨h.1, by omega⟩
      · rw [if_neg hc] at hm
        rcases List.mem_append.mp hm with h1 | h2
        · have h := (heq bound m).mp h1
          exact ⟨h.1, le_of_eq h.2.symm⟩
        · have h := ih (bound + 1) candidate (by omega) m h2
          exact ⟨h.1, by omega⟩

/-- The emission sweep yields models in non-decreasing order of
non-stutter count. -/
lemma stutter_sweep_pairwise (count : PyModel → Nat)
    (enumLe enumEq : Nat → List PyModel) (allModels : List PyModel)
    (naive : Nat) (heq : ExactlyOracle count allModels enumEq) :
    ∀ k bound candidate, naive + 1 - bound ≤ k →
      List.Pairwise (fun a b => count a ≤ count b)
        (stutter_sweep count enumLe enumEq naive bound candidate) := by
  intro k
  induction k with
  | zero =>
    intro bound candidate hk
    have hb : bound > naive := by omega
    rw [stutter_sweep, if_pos hb]
    exact List.Pairwise.nil
  | succ k ih =>
    intro bound candidate hk
    have block : ∀ c, List.Pairwise (fun a b => count a ≤ count b)
        (enumEq bound ++ stutter_sweep count enumLe enumEq naive (bound + 1) c) := by
      intro c
      by_cases hb : bound > naive
      · refine List.pairwise_append.mpr ⟨?_, ih (bound + 1) c (by omega), ?_⟩
        · exact List.pairwise_of_forall_mem_list fun a ha b hbm => by
            have h1 := (heq bound a).mp ha
            have h2 := (heq bound b).mp hbm
            omega
        · intro a ha b hbm
          have h1 := (heq bound a).mp ha
          have h2 := stutter_sweep_mem_le count enumLe enumEq allModels naive heq
            (naive + 1 - (bound + 1)) (bound + 1) c (by omega) b hbm
          omega
      · refine List.pairwise_append.mpr ⟨?_, ih (bound + 1) c (by omega), ?_⟩
        · exact List.pairwise_of_forall_mem_list fun a ha b hbm => by
            have h1 := (heq bound a).mp ha
            have h2 := (heq bound b).mp hbm
            omega
        · intro a ha b hbm
          have h1 := (heq bound a).mp ha
          have h2 := stutter_sweep_mem_le count enumLe enumEq allModels naive heq
            (naive + 1 - (bound + 1)) (bound + 1) c (by omega) b hbm
          omega
    by_cases hb : bound > naive
    · rw [stutter_sweep, if_pos hb]
      exact List.Pairwise.nil
    · rw [stutter_sweep, if_neg hb]
      by_cases hc : bound > candidate
      · rw [if_pos hc]
        cases hw : (enumLe bound).head? with
        | none => exact List.Pairwise.nil
        | some w => exact block (count w)
      · rw [if_neg hc]
        exact block candidate

/-- A sweep starting at a bound inside the range and not beyond the
confirmed-feasible candidate emits the exactly-`bound` block first. -/
lemma stutter_sweep_head (count : PyModel → Nat)
    (enumLe enumEq : Nat → List PyModel) (naive bound candidate : Nat)
    (hb : bound ≤ naive) (hc : bound ≤ candidate) :
    stutter_sweep count enumLe enumEq naive bound candidate =
      enumEq bound ++ stutter_sweep count enumLe enumEq naive (bound + 1) candidate := by
  rw [stutter_sweep, if_neg (by omega), if_neg (by omega)]

/-! ### Claim theorems -/

/-- C10: the binary-search loop of `order_models_by_stutter` terminates:
with fuel at least `hi - lo` (one unit per iteration) it never exhausts its
fuel, because an unsatisfiable query strictly raises `lo` to `mid + 1` and
a witness strictly lowers `hi` to the witness's count, which the
`assert hi <= mid` step bounds by `mid < hi` (an assertion failure also
ends the loop, as the raised `AssertionError` does in Python). -/
theorem claim_C10_bsearch_terminates (count : PyModel → Nat)
    (enumLe : Nat → List PyModel) :
    ∀ fuel lo hi, hi - lo ≤ fuel →
      stutter_bsearch count enumLe fuel lo hi ≠ BSResult.outOfFuel := by
  intro fuel
  induction fuel with
  | zero =>
    intro lo hi hfuel
    have hlt : ¬ lo < hi := by omega
    simp [stutter_bsearch, hlt]
  | succ fuel ih =>
    intro lo hi hfuel
    by_cases hlt : lo < hi
    · have h1 : lo ≤ (lo + hi) / 2 := by omega
      have h2 : (lo + hi) / 2 < hi := by omega
      cases hw : (enumLe ((lo + hi) / 2)).head? with
      | some w =>
        by_cases hcw : count w ≤ (lo + hi) / 2
        · simp only [stutter_bsearch, if_pos hlt, hw, if_pos hcw]
          exact ih lo (count w) (by omega)
        · simp [stutter_bsearch, if_pos hlt, hw, hcw]
      | none =>
        simp only [stutter_bsearch, if_pos hlt, hw]
        exact ih ((lo + hi) / 2 + 1) hi (by omega)
    · simp [stutter_bsearch, hlt]

/-- Witness for C10 at fuel 3, `lo = 0`, `hi = 2`. -/
theorem claim_C10_witness :
    stutter_bsearch (non_stutter_count [1, 2]) sampleEnumLe 3 0 2
      ≠ BSResult.outOfFuel :=
  claim_C10_bsearch_terminates (non_stutter_count [1, 2]) sampleEnumLe 3 0 2
    (by decide)

/-- C6: the stutter binary search with witness refinement, started at
`lo = n_colors - 1` and `hi` = the witness model's non-stutter count,
exits with `lo` equal to the true minimum non-stutter count `μ` among all
models of the clause set, assuming the oracle/cardinality-encoder contract
(`AtMostOracle`) and `n_colors - 1 ≤ μ`. -/
theorem claim_C6_stutter_binary_search (lits : List Nat) (n_colors : Nat)
    (enumLe : Nat → List PyModel) (allModels : List PyModel)
    (model : PyModel) (μ fuel : Nat)
    (hor : AtMostOracle (non_stutter_count lits) allModels enumLe)
    (hmin : IsMinCount (non_stutter_count lits) allModels μ)
    (hmodel : model ∈ allModels)
    (hlo : n_colors - 1 ≤ μ)
    (hfuel : non_stutter_count lits model - (n_colors - 1) ≤ fuel) :
    stutter_bsearch (non_stutter_count lits) enumLe fuel (n_colors - 1)
      (non_stutter_count lits model) = .done μ :=
  stutter_bsearch_finds_min (non_stutter_count lits) enumLe allModels μ hor hmin
    fuel (n_colors - 1) (non_stutter_count lits model) hlo
    (hmin.2 model hmodel) hfuel

/-- Witness for C6: two models of counts 1 and 2, `n_colors = 1`; the
search returns the true minimum 1. -/
theorem claim_C6_witness :
    stutter_bsearch (non_stutter_count [1, 2]) sampleEnumLe 2 0
      (non_stutter_count [1, 2] [1, 2]) = .done 1 :=
  claim_C6_stutter_binary_search [1, 2] 1 sampleEnumLe sampleAllModels
    [1, 2] 1 2 (atMostOracle_filter (non_stutter_count [1, 2]) sampleAllModels)
    ⟨⟨[1, -2], by decide, by decide⟩, by decide⟩
    (by decide) (by decide) (by decide)

/-- C7: under the oracle contracts, `order_models_by_stutter` succeeds and
emits a sequence of models of the clause set whose non-stutter counts are
non-decreasing, whose first element attains the global minimum `μ` for
this k, and which contains every model of minimum count; the sweep (and
its early stop on an unsatisfiable at-most query past the confirmed
feasible count) never emits a count below `μ`. -/
theorem claim_C7_stutter_monotone (lits : List Nat) (n_colors : Nat)
    (enumLe enumEq : Nat → List PyModel) (allModels : List PyModel)
    (model : PyModel) (μ : Nat)
    (hle : AtMostOracle (non_stutter_count lits) allModels enumLe)
    (heq : ExactlyOracle (non_stutter_count lits) allModels enumEq)
    (hmin : IsMinCount (non_stutter_count lits) allModels μ)
    (hmodel : model ∈ allModels)
    (hlo : n_colors - 1 ≤ μ) :
    ∃ L, order_models_by_stutter lits n_colors enumLe enumEq model = some L ∧
      List.Pairwise
        (fun a b => non_stutter_count lits a ≤ non_stutter_count lits b) L ∧
      (∃ m0 t, L = m0 :: t ∧ non_stutter_count lits m0 = μ) ∧
      (∀ m ∈ L, m ∈ allModels ∧ μ ≤ non_stutter_count lits m) ∧
      (∀ m ∈ allModels, non_stutter_count lits m = μ → m ∈ L) := by
  have hμc : μ ≤ non_stutter_count lits model := hmin.2 model hmodel
  have hμn : μ ≤ lits.length := by
    obtain ⟨mstar, hms, hcs⟩ := hmin.1
    calc μ = non_stutter_count lits mstar := hcs.symm
      _ ≤ lits.length := List.length_filter_le _ _
  have hbs : stutter_bsearch (non_stutter_count lits) enumLe
      (non_stutter_count lits model + 1) (n_colors - 1)
      (non_stutter_count lits model) = .done μ :=
    stutter_bsearch_finds_min (non_stutter_count lits) enumLe allModels μ hle
      hmin _ _ _ hlo hμc (by omega)
  refine ⟨stutter_sweep (non_stutter_count lits) enumLe enumEq lits.length μ
      (non_stutter_count lits model), ?_, ?_, ?_, ?_, ?_⟩
  · simp only [order_models_by_stutter, hbs]
  · exact stutter_sweep_pairwise (non_stutter_count lits) enumLe enumEq
      allModels lits.length heq (lits.length + 1 - μ) μ _ (by omega)
  · rw [stutter_sweep_head (non_stutter_count lits) enumLe enumEq lits.length
      μ (non_stutter_count lits model) hμn hμc]
    obtain ⟨mstar, hms, hcs⟩ := hmin.1
    have hmem : mstar ∈ enumEq μ := (heq μ mstar).mpr ⟨hms, hcs⟩
    cases henum : enumEq μ with
    | nil =>
      rw [henum] at hmem
      exact absurd hmem (by simp)
    | cons m0 t0 =>
      refine ⟨m0, t0 ++ stutter_sweep (non_stutter_count lits) enumLe enumEq
        lits.length (μ + 1) (non_stutter_count lits model),
        by simp, ?_⟩
      have hm0 : m0 ∈ enumEq μ := by
        rw [henum]
        exact List.mem_cons_self m0 t0
      exact ((heq μ m0).mp hm0).2
  · intro m hm
    have h := stutter_sweep_mem_le (non_stutter_count lits) enumLe enumEq
      allModels lits.length heq (lits.length + 1 - μ) μ
      (non_stutter_count lits model) (by omega) m hm
    exact ⟨h.1, h.2⟩
  · intro m hm hc
    rw [stutter_sweep_head (non_stutter_count lits) enumLe enumEq lits.length
      μ (non_stutter_count lits model) hμn hμc]
    exact List.mem_append_left _ ((heq μ m).mpr ⟨hm, hc⟩)

/-- Witness for C7 on the two-model sample: the optimizer emits the
count-1 model first, then the count-2 model. -/
theorem claim_C7_witness :
    ∃ L, order_models_by_stutter [1, 2] 1 sampleEnumLe sampleEnumEq [1, 2]
        = some L ∧
      ∃ m0 t, L = m0 :: t ∧ non_stutter_count [1, 2] m0 = 1 := by
  obtain ⟨L, h1, h2, h3, h4, h5⟩ :=
    claim_C7_stutter_monotone [1, 2] 1 sampleEnumLe sampleEnumEq
      sampleAllModels [1, 2] 1
      (atMostOracle_filter (non_stutter_count [1, 2]) sampleAllModels)
      (exactlyOracle_filter (non_stutter_count [1, 2]) sampleAllModels)
      ⟨⟨[1, -2], by decide, by decide⟩, by decide⟩
      (by decide) (by decide)
  exact ⟨L, h1, h3⟩

/-- C2: the driver loop walks the encoding stream in order (sizes strictly
increasing), skips every unsatisfiable size; with `allow_unminimized`
false it yields all models of the first satisfiable size and stops — so
every yielded pair carries the codec of the smallest satisfiable size —
and with `allow_unminimized` true it continues, yielding the models of
every satisfiable size in increasing-k stream order. -/
theorem claim_C2_minimality {C : Type} (encs : List (Encoding C)) (obs : Bool)
    (hk : List.Pairwise (fun a b => a.nColors < b.nColors) encs)
    (hSucc : ∀ e ∈ encs, e.solvable = true → (encModels obs e).isSome = true) :
    (∀ unm, encs.find? (fun e => e.solvable) = none →
      find_models_loop obs unm encs = .ok []) ∧
    (∀ e, encs.find? (fun e => e.solvable) = some e →
      find_models_loop obs false encs =
        .ok (((encModels obs e).getD []).map fun m => (e.codec, m)) ∧
      ∀ x ∈ encs, x.solvable = true → e.nColors ≤ x.nColors) ∧
    find_models_loop obs true encs =
      .ok ((encs.filter fun e => e.solvable).flatMap
        fun e => ((encModels obs e).getD []).map fun m => (e.codec, m)) := by
  refine ⟨fun unm h => find_models_loop_of_find?_none obs unm encs h, ?_,
    find_models_loop_of_unm obs encs hSucc⟩
  intro e h
  have he : e ∈ encs := List.mem_of_find?_eq_some h
  have hes : e.solvable = true := by simpa using List.find?_some h
  obtain ⟨ms, hms⟩ := Option.isSome_iff_exists.mp (hSucc e he hes)
  refine ⟨?_, find?_solvable_min_nColors encs e hk h⟩
  rw [find_models_loop_of_find?_some obs encs e h ms hms, hms]
  rfl

/-- Witness for C2: a two-encoding stream (k = 1 unsatisfiable, k = 2
satisfiable); the loop yields exactly the k = 2 models. -/
theorem claim_C2_witness :
    find_models_loop false false [sampleEnc0, sampleEnc] = .ok [((), [1])] :=
  ((claim_C2_minimality [sampleEnc0, sampleEnc] false
      (by constructor
          · intro b hb
            rw [List.mem_singleton.mp hb]
            decide
          · simp)
      (by intro e he hs
          rcases List.mem_cons.mp he with rfl | he'
          · exact absurd hs (by decide)
          · rw [List.mem_singleton.mp he']
            rfl)).2.1 sampleEnc rfl).1

/-- C1: soundness of `find_dfas` / `find_dfa` — under the encoding/extractor
contract (spec-modelled, the encoding modules are not under `src/`), every
DFA they return labels every accepting word true and every rejecting word
false. -/
theorem claim_C1_soundness {σ C : Type} [DecidableEq σ]
    (extract : C → PyModel → DFA σ)
    (encodingsOf : List (Word σ) → List (Word σ) → Option (List σ) → List (Encoding C))
    (obs : Bool) (accepting rejecting : List (Word σ))
    (alphabet : Option (List σ))
    (hsound : EncodingsSound obs extract encodingsOf) :
    (∀ unm L,
      find_dfas extract encodingsOf obs unm accepting rejecting alphabet = .ok L →
      ∀ d ∈ L, ConsistentWith d accepting rejecting) ∧
    (∀ d,
      find_dfa extract encodingsOf obs accepting rejecting alphabet = .ok (some d) →
      ConsistentWith d accepting rejecting) := by
  have main : ∀ unm P,
      find_models encodingsOf obs unm accepting rejecting alphabet = .ok P →
      ∀ p ∈ P, ConsistentWith (extract p.1 p.2) accepting rejecting := by
    intro unm P hP p hp
    unfold find_models at hP
    by_cases hany : (accepting.any fun w => rejecting.contains w) = true
    · rw [if_pos hany] at hP
      obtain rfl : ([] : List (C × PyModel)) = P := by injection hP
      exact absurd hp (by simp)
    · rw [if_neg hany] at hP
      by_cases hemp : (accepting.isEmpty && rejecting.isEmpty) = true
      · obtain ⟨ha, hr⟩ := Bool.and_eq_true_iff.mp hemp
        rw [List.isEmpty_iff.mp ha, List.isEmpty_iff.mp hr]
        exact ⟨by simp, by simp⟩
      · rw [if_neg hemp] at hP
        obtain ⟨e, he, ms, hms, h1, h2⟩ :=
          find_models_loop_mem obs unm _ P hP p hp
        have hc := hsound accepting rejecting alphabet e he ms hms p.2 h2
        rw [h1]
        exact hc
  have dfas : ∀ unm L,
      find_dfas extract encodingsOf obs unm accepting rejecting alphabet = .ok L →
      ∀ d ∈ L, ConsistentWith d accepting rejecting := by
    intro unm L hL d hd
    unfold find_dfas at hL
    cases hP : find_models encodingsOf obs unm accepting rejecting alphabet with
    | error err => rw [hP] at hL; exact absurd hL (by simp [Except.map])
    | ok P =>
      rw [hP] at hL
      simp only [Except.map] at hL
      obtain rfl : P.map (fun p => extract p.1 p.2) = L := by injection hL
      obtain ⟨p, hpP, rfl⟩ := List.mem_map.mp hd
      exact main unm P hP p hpP
  refine ⟨dfas, ?_⟩
  intro d hd
  unfold find_dfa at hd
  cases hL : find_dfas extract encodingsOf obs false accepting rejecting alphabet with
  | error err => rw [hL] at hd; exact absurd hd (by simp [Except.map])
  | ok L =>
    rw [hL] at hd
    simp only [Except.map] at hd
    obtain hhead : L.head? = some d := by injection hd
    exact dfas false L hL d (List.mem_of_mem_head? hhead)

/-- Witness pipeline for C1: a single encoding reachable only from the
example pair `([[0]], [[1]])`, whose one model extracts to the DFA
accepting exactly the word `[0]`. -/
def sampleExtract : Unit → PyModel → DFA Nat :=
  fun _ _ => DFA.mk fun w => decide (w = [0])

/-- Witness encoding stream for C1: nonempty only on the example pair
`([[0]], [[1]])`. -/
def sampleEncodingsOf :
    List (Word Nat) → List (Word Nat) → Option (List Nat) → List (Encoding Unit) :=
  fun acc rej _ => if acc = [[0]] ∧ rej = [[1]] then [sampleEnc] else []

/-- Witness for C1: the sample pipeline's returned DFA labels the accepting
word `[0]` true and the rejecting word `[1]` false. -/
theorem claim_C1_witness :
    ConsistentWith (sampleExtract () [1]) [[0]] [[1]] := by
  have hsound : EncodingsSound false sampleExtract sampleEncodingsOf := by
    intro acc rej alph e he ms hms m hm
    unfold sampleEncodingsOf at he
    by_cases h : acc = [[0]] ∧ rej = [[1]]
    · rw [if_pos h] at he
      obtain ⟨rfl, rfl⟩ := h
      obtain rfl := List.mem_singleton.mp he
      obtain rfl : [[1]] = ms := by injection hms
      obtain rfl := List.mem_singleton.mp hm
      exact ⟨by decide, by decide⟩
    · rw [if_neg h] at he
      exact absurd he (by simp)
  exact (claim_C1_soundness sampleExtract sampleEncodingsOf false
      [[0]] [[1]] none hsound).1 false [sampleExtract () [1]] rfl
    (sampleExtract () [1]) (List.mem_singleton.mpr rfl)

/-- C5: when both the accepting and rejecting sets are empty and no alphabet
is given, `find_models` — and hence `find_dfas` and `find_dfa` — fails with
the fatal `ValueError` reported to the caller, rather than returning an
empty or non-empty result sequence. -/
theorem claim_C5_insufficient_specification {σ C : Type} [DecidableEq σ]
    (extract : C → PyModel → DFA σ)
    (encodingsOf : List (Word σ) → List (Word σ) → Option (List σ) → List (Encoding C))
    (obs unm : Bool) :
    find_models encodingsOf obs unm [] [] none = .error .valueError ∧
    find_dfas extract encodingsOf obs unm [] [] none = .error .valueError ∧
    find_dfa extract encodingsOf obs [] [] none = .error .valueError :=
  ⟨rfl, rfl, rfl⟩

/-- C9: with both example sets empty, an explicitly empty alphabet is
treated exactly like no alphabet — `find_models` raises the fatal
insufficient-specification `ValueError` instead of running the empty-word
duality interleaving, because `if not alphabet:` tests falsiness. -/
theorem claim_C9_empty_alphabet_is_falsy {σ C : Type} [DecidableEq σ]
    (encodingsOf : List (Word σ) → List (Word σ) → Option (List σ) → List (Encoding C))
    (obs unm : Bool) :
    find_models encodingsOf obs unm [] [] (some []) = .error .valueError ∧
    find_models encodingsOf obs unm [] [] (some []) =
      find_models encodingsOf obs unm [] [] none :=
  ⟨rfl, rfl⟩

/-- C4: a word occurring in both example sets makes `find_models` and
`find_dfas` return an empty sequence without an exception, and `find_dfa`
return `None`.  The conclusion holds for every `encodingsOf`, so no oracle
query is consulted: the result is independent of the encoding/solver
pipeline. -/
theorem claim_C4_contradictory_examples {σ C : Type} [DecidableEq σ]
    (extract : C → PyModel → DFA σ)
    (encodingsOf : List (Word σ) → List (Word σ) → Option (List σ) → List (Encoding C))
    (obs unm : Bool) (accepting rejecting : List (Word σ))
    (alphabet : Option (List σ)) (w : Word σ)
    (hw : w ∈ accepting ∧ w ∈ rejecting) :
    find_models encodingsOf obs unm accepting rejecting alphabet = .ok [] ∧
    find_dfas extract encodingsOf obs unm accepting rejecting alphabet = .ok [] ∧
    find_dfa extract encodingsOf obs accepting rejecting alphabet = .ok none := by
  have hany : (accepting.any fun v => rejecting.contains v) = true := by
    simp only [List.any_eq_true]
    exact ⟨w, hw.1, by simpa using hw.2⟩
  have h1 : ∀ u, find_models encodingsOf obs u accepting rejecting alphabet = .ok [] := by
    intro u
    unfold find_models
    rw [if_pos hany]
  exact ⟨h1 unm, by simp [find_dfas, h1 unm, Except.map],
    by simp [find_dfa, find_dfas, h1 false, Except.map]⟩

/-- Witness for C4 at `accepting = [[0]], rejecting = [[0]]`. -/
theorem claim_C4_witness :
    find_dfa (fun _ _ => DFA.mk fun _ => true)
      (fun _ _ _ => ([] : List (Encoding Unit))) false
      [[0]] [[0]] (none : Option (List Nat)) = .ok none :=
  (claim_C4_contradictory_examples (fun _ _ => DFA.mk fun _ => true)
    (fun _ _ _ => ([] : List (Encoding Unit))) false false
    [[0]] [[0]] none [0] ⟨by decide, by decide⟩).2.2

/-- C8: `find_dfa` agrees with `find_dfas`: it returns exactly the first
element of the sequence `find_dfas` produces on the same arguments
(`allow_unminimized` at its shared default `False`), or `None` when that
sequence is empty. -/
theorem claim_C8_find_dfa_is_first {σ C : Type} [DecidableEq σ]
    (extract : C → PyModel → DFA σ)
    (encodingsOf : List (Word σ) → List (Word σ) → Option (List σ) → List (Encoding C))
    (obs : Bool) (accepting rejecting : List (Word σ))
    (alphabet : Option (List σ)) :
    find_dfa extract encodingsOf obs accepting rejecting alphabet =
      (find_dfas extract encodingsOf obs false accepting rejecting alphabet).map
        List.head? ∧
    ∀ L, find_dfas extract encodingsOf obs false accepting rejecting alphabet
        = .ok L →
      (L = [] →
        find_dfa extract encodingsOf obs accepting rejecting alphabet = .ok none) ∧
      (∀ d t, L = d :: t →
        find_dfa extract encodingsOf obs accepting rejecting alphabet
          = .ok (some d)) := by
  refine ⟨rfl, ?_⟩
  intro L h
  constructor
  · intro hL
    subst hL
    simp [find_dfa, h, Except.map]
  · intro d t hL
    subst hL
    simp [find_dfa, h, Except.map]

/-- Witness for C8 on a one-encoding pipeline producing one DFA. -/
theorem claim_C8_witness :
    find_dfa (fun _ _ => DFA.mk fun _ => true)
      (fun _ _ _ => [sampleEnc]) false [[0]] [] (none : Option (List Nat))
      = .ok (some (DFA.mk fun _ => true)) :=
  ((claim_C8_find_dfa_is_first (fun _ _ => DFA.mk fun _ => true)
      (fun _ _ _ => [sampleEnc]) false [[0]] [] none).2
    [DFA.mk fun _ => true] rfl).2 (DFA.mk fun _ => true) [] rfl

/-- C3: with both example sets empty and a nonempty alphabet, `find_models`
runs the inference twice — once with the empty word forced into the
accepting set, once into the rejecting set — and returns the round-robin
interleaving of the two result sequences; `roundrobin` alternates one
element from each while both last and then drains the rest of the longer
one (the empty-alphabet case is claim C9). -/
theorem claim_C3_empty_with_alphabet_duality {σ C : Type} [DecidableEq σ]
    (encodingsOf : List (Word σ) → List (Word σ) → Option (List σ) → List (Encoding C))
    (obs unm : Bool) (l : List σ) (pos neg : List (C × PyModel))
    (hl : l ≠ [])
    (hpos : find_models_loop obs unm (encodingsOf [[]] [] (some l)) = .ok pos)
    (hneg : find_models_loop obs unm (encodingsOf [] [[]] (some l)) = .ok neg) :
    find_models encodingsOf obs unm [] [] (some l) = .ok (roundrobin pos neg) ∧
    roundrobin pos neg =
      (pos.zip neg).flatMap (fun p => [p.1, p.2]) ++
        (if pos.length ≤ neg.length then neg.drop pos.length
         else pos.drop neg.length) := by
  refine ⟨?_, roundrobin_eq pos neg⟩
  obtain ⟨a, l', rfl⟩ := List.exists_cons_of_ne_nil hl
  simp only [find_models, alphabetFalsy, hpos, hneg, List.any_nil,
    List.isEmpty_nil, Bool.and_self, if_true, if_false, Bool.false_eq_true,
    List.isEmpty_cons, if_pos]
  rfl

/-- Witness for C3: a pipeline with one solvable encoding on each
conjecture; the two singleton sequences interleave. -/
theorem claim_C3_witness :
    find_models (fun _ _ _ => [sampleEnc]) false false
      ([] : List (Word Nat)) [] (some [0])
      = .ok (roundrobin [((), [1])] [((), [1])]) :=
  (claim_C3_empty_with_alphabet_duality (fun _ _ _ => [sampleEnc])
    false false [0] [((), [1])] [((), [1])] (by decide) rfl rfl).1

end DfaIdentify
